import Mathlib

/-!
# Verification of the xv6-riscv physical page allocator (kernel/kalloc.c)

A shallow embedding of `kernel/kalloc.c` (the reference-counted variant of the
xv6 physical page allocator) and proofs about it.

Modelling conventions:
* Physical addresses and byte values are `Nat`; the machine does 64-bit
  arithmetic but no operation here can overflow for well-formed configurations
  (`Cfg.Wf` requires `PHYSTOP + PGSIZE < 2^64`), so plain `Nat` is faithful.
* A `panic` (kernel halt) is modelled as `none` of an `Option` result.
* The constants `end`, `end_pg`, `PHYSTOP` and `NPAGES` come from `kernel.ld`,
  `memlayout.h` and `param.h`, which are outside the sources at hand; they are
  parameters of the model (`Cfg`), constrained by `Cfg.Wf`.
* The intrusive singly linked free list (`kmem.freelist`, links stored in the
  first 8 bytes of each free frame) is represented by the abstract `List Nat`
  of the frame base addresses, head first; the store of the link `r->next`
  into frame memory is still performed on the byte model (`storeLink`), and
  reading `r->next` in `kalloc` corresponds to taking the tail of the list.
* The reference count field `pages[pfn].ref` is a C `int`, modelled as `Int`
  (the code explicitly guards against zero *or negative* counts).
* Locks guard the state against concurrent access; single operations are
  modelled as atomic state transformers, and the lock acquisition/release
  structure of each operation is additionally modelled as an event trace
  (`LockEv`) taken straight from the code, to reason about lock nesting.
-/

namespace KAlloc

/-- Constant `PGSIZE` from `riscv.h`: bytes per page; `pa_to_pfn` hardcodes the shift
`>> 12`, so the page size is 4096. -/
def PGSIZE : Nat := 4096

/-- Macro `PGROUNDUP(sz) = ((sz)+PGSIZE-1) & ~(PGSIZE-1)` from `riscv.h`; for the
power-of-two `PGSIZE` this equals rounding up to the next multiple. -/
def PGROUNDUP (a : Nat) : Nat := ((a + PGSIZE - 1) / PGSIZE) * PGSIZE

/-- Link-time/boot-time constants consumed by `kalloc.c`.
`kend` is `end` (first address after the kernel, from `kernel.ld`; `end` is a
Lean keyword, hence the name), `PHYSTOP` is the top of physical memory
(`memlayout.h`), `NPAGES` the size of the page descriptor table (`param.h`). -/
structure Cfg where
  kend : Nat
  PHYSTOP : Nat
  NPAGES : Nat

/-- Symbol `end_pg` from `kernel.ld`: the first page-aligned address after the
kernel, i.e. `PGROUNDUP(end)`. -/
def Cfg.end_pg (c : Cfg) : Nat := PGROUNDUP c.kend

/-- Well-formedness of the boot constants.  Modelled from the spec: the
manageable range `[end_pg, PHYSTOP)` is a frame-aligned interval, and the
page descriptor table (`NPAGES`, from `param.h`, not among the sources) has
one entry per manageable frame. -/
def Cfg.Wf (c : Cfg) : Prop :=
  c.PHYSTOP % PGSIZE = 0 ∧
  c.end_pg ≤ c.PHYSTOP ∧
  c.NPAGES = (c.PHYSTOP - c.end_pg) / PGSIZE ∧
  c.PHYSTOP + PGSIZE < 2 ^ 64

/-- The allocator state: the free list `kmem.freelist` (frame base addresses,
head first), the reference counts `pages[i].ref`, and physical memory
contents, `mem pa off` being the byte at offset `off` of the frame based at
`pa`. -/
structure AState where
  freelist : List Nat
  ref : Nat → Int
  mem : Nat → Nat → Nat

/-- The byte `memset` writes in `kalloc` ("fill with junk"). -/
def allocJunk : Nat := 5

/-- The byte `memset` writes in `kfree1` ("fill with junk to catch dangling
refs"). -/
def freeJunk : Nat := 1

/-- Byte `off` of the 64-bit little-endian representation of `v`: the layout
of the pointer store `r->next = v`. -/
def linkByte (v off : Nat) : Nat := v / 256 ^ off % 256

/-- Store `r->next = v` for the run node at frame `pa`: overwrite the first 8 bytes
of the frame with the pointer value `v`. -/
def storeLink (m : Nat → Nat → Nat) (pa v : Nat) : Nat → Nat → Nat :=
  fun a off => if a = pa ∧ off < 8 then linkByte v off else m a off

/-- Call `memset(pa, b, PGSIZE)`: fill the whole frame at `pa` with byte `b`. -/
def memsetFrame (m : Nat → Nat → Nat) (pa b : Nat) : Nat → Nat → Nat :=
  fun a off => if a = pa then b else m a off

/-- Function `pa_to_pfn` from `kalloc.c`:

    if ((pa % PGSIZE) != 0 || pa < (uint64)end_pg || pa > (uint64)PHYSTOP)
      panic("pa_to_pfn");
    return (pa - (uint64)end_pg) >> 12;

Note the guard is `pa > PHYSTOP`, not `pa >= PHYSTOP`. -/
def pa_to_pfn (c : Cfg) (pa : Nat) : Option Nat :=
  if pa % PGSIZE ≠ 0 ∨ pa < c.end_pg ∨ c.PHYSTOP < pa then none
  else some ((pa - c.end_pg) >>> 12)

/-- Function `kfree1(pa, decrease_ref)` from `kalloc.c`.  After the range check and the
per-descriptor reference-count handling, the code *unconditionally* fills the
frame with `freeJunk` and pushes it onto the free list (there is no early
return on the `--pd->ref > 0` path; that branch only prints a diagnostic). -/
def kfree1 (c : Cfg) (pa : Nat) (decrease_ref : Bool) (s : AState) :
    Option AState :=
  if pa % PGSIZE ≠ 0 ∨ pa < c.kend ∨ c.PHYSTOP ≤ pa then
    none  -- panic("kfree")
  else
    match pa_to_pfn c pa with
    | none => none
    | some pfn =>
      -- the common tail: memset(pa, 1, PGSIZE); push pa on kmem.freelist
      let push : AState → Option AState := fun s1 =>
        some { freelist := pa :: s1.freelist
               ref := s1.ref
               mem := storeLink (memsetFrame s1.mem pa freeJunk) pa
                        (s1.freelist.headD 0) }
      if decrease_ref then
        if s.ref pfn ≤ 0 then
          none  -- panic("kfree: page has zero or negative ref count")
        else
          -- --pd->ref; (the > 0 case only prints, then falls through)
          push { s with ref := fun i => if i = pfn then s.ref pfn - 1
                                        else s.ref i }
      else
        if s.ref pfn ≠ 0 then
          none  -- panic("kfree for freerange: page has non-zero ref count")
        else push s

/-- Function `kfree(pa)`: calls `kfree1(pa, 1)`. -/
def kfree (c : Cfg) (pa : Nat) (s : AState) : Option AState :=
  kfree1 c pa true s

/-- Function `kalloc()` from `kalloc.c`.  The result is `none` on panic, otherwise the
returned pointer (`none` = null, the "no memory" result) with the new state. -/
def kalloc (c : Cfg) (s : AState) : Option (Option Nat × AState) :=
  match s.freelist with
  | [] => some (none, s)  -- r == 0: return 0, state untouched
  | r :: rest =>
    match pa_to_pfn c r with
    | none => none
    | some pfn =>
      if s.ref pfn ≠ 0 then
        none  -- panic("kalloc: non-zero ref count on free page")
      else
        some (some r,
          { freelist := rest
            ref := fun i => if i = pfn then s.ref pfn + 1 else s.ref i
            mem := memsetFrame s.mem r allocJunk })

/-- The loop of `freerange`: `for(; p + PGSIZE <= pa_end; p += PGSIZE)
kfree1(p, 0);` with `pa_end = PHYSTOP` (the only call site).  `fuel` bounds
the iteration count so the recursion is structural; `freerange` passes enough
fuel for the loop to run to its real exit condition. -/
def freerangeFrom (c : Cfg) : Nat → Nat → AState → Option AState
  | 0, p, s => if p + PGSIZE ≤ c.PHYSTOP then none else some s
  | fuel + 1, p, s =>
    if p + PGSIZE ≤ c.PHYSTOP then
      match kfree1 c p false s with
      | none => none
      | some s1 => freerangeFrom c fuel (p + PGSIZE) s1
    else some s

/-- Call `freerange(end, (void*)PHYSTOP)`: start at `PGROUNDUP(end)`. -/
def freerange (c : Cfg) (s : AState) : Option AState :=
  freerangeFrom c (c.PHYSTOP / PGSIZE + 1) (PGROUNDUP c.kend) s

/-- Function `kinit()` from `kalloc.c`: `initlock(&kmem.lock)` (no observable effect
here), then `freerange(end, (void*)PHYSTOP)`, then the loop
`for (i=0; i<NPAGES; ++i) { initlock(&pages[i].lock); pages[i].ref = 0; }`. -/
def kinit (c : Cfg) (s : AState) : Option AState :=
  match freerange c s with
  | none => none
  | some s1 => some { s1 with ref := fun i => if i < c.NPAGES then 0
                                              else s1.ref i }

/-- The state at entry to `kinit`: C statics are zero-initialized, so
`kmem.freelist == 0` (empty list) and every `pages[i].ref == 0`; RAM contents
`m0` are arbitrary. -/
def bootState (m0 : Nat → Nat → Nat) : AState :=
  { freelist := [], ref := fun _ => 0, mem := m0 }

/-- The frame index of `pa`: the value `pa_to_pfn` returns when it does not
panic. -/
def pfnOf (c : Cfg) (pa : Nat) : Nat := (pa - c.end_pg) >>> 12

/-- Predicate saying `pa` is a frame base address of the manageable range: frame-aligned and
inside `[end_pg, PHYSTOP)`. -/
def validPa (c : Cfg) (pa : Nat) : Prop :=
  pa % PGSIZE = 0 ∧ c.end_pg ≤ pa ∧ pa < c.PHYSTOP

/-- The free-list invariant: the list holds no duplicates, and every frame on
it is a valid frame of the manageable range whose descriptor reference count
is zero.  (`ref = 0` in particular makes the free list disjoint from the
live-owned frames, those with `ref ≥ 1`.)  The bound `ref ≤ 1` is the
auxiliary fact that makes the invariant inductive: none of `kinit`, `kalloc`,
`kfree` ever raises a count above 1. -/
def Inv (c : Cfg) (s : AState) : Prop :=
  s.freelist.Nodup ∧
  (∀ pa ∈ s.freelist, validPa c pa ∧ s.ref (pfnOf c pa) = 0) ∧
  (∀ i, 0 ≤ s.ref i ∧ s.ref i ≤ 1)

/-- States reachable by `kinit` from the boot state (arbitrary RAM contents,
zeroed statics) followed by any sequence of non-panicking `kalloc` and
`kfree` calls. -/
inductive Reachable (c : Cfg) : AState → Prop where
  | boot : ∀ m0 s, kinit c (bootState m0) = some s → Reachable c s
  | alloc : ∀ s r s1, Reachable c s → kalloc c s = some (r, s1) →
      Reachable c s1
  | free : ∀ s pa s1, Reachable c s → kfree c pa s = some s1 →
      Reachable c s1

/-- The addresses the loop of `freerange` visits: `p, p + PGSIZE, ...` while
`p + PGSIZE <= PHYSTOP` (same fuel convention as `freerangeFrom`). -/
def framesFrom (c : Cfg) : Nat → Nat → List Nat
  | 0, _ => []
  | fuel + 1, p =>
    if p + PGSIZE ≤ c.PHYSTOP then p :: framesFrom c fuel (p + PGSIZE)
    else []

/-! ### Lock event traces

The lock operations each of `kalloc` and `kfree1` performs, in program order,
read off the source; a panic truncates the trace at the point the kernel
halts. -/

/-- The two lock domains: `kmem.lock` and the per-frame `pages[pfn].lock`. -/
inductive LockId where
  | kmemL : LockId
  | pdL : Nat → LockId

/-- An `acquire` or `release` event on a lock. -/
inductive LockEv where
  | acq : LockId → LockEv
  | rel : LockId → LockEv

/-- Lock events of `kalloc()`: `acquire(&kmem.lock); ... release(&kmem.lock)`
around the pop, then (if a frame was popped and `pa_to_pfn` did not panic)
`acquire(&pd->lock)`, the ref-count check (panicking while the descriptor
lock is held), and `release(&pd->lock)`. -/
def kallocLockTrace (c : Cfg) (s : AState) : List LockEv :=
  [.acq .kmemL, .rel .kmemL] ++
  match s.freelist with
  | [] => []
  | r :: _ =>
    match pa_to_pfn c r with
    | none => []  -- panic inside pa_to_pfn: no lock held
    | some pfn =>
      .acq (.pdL pfn) ::
        (if s.ref pfn ≠ 0 then [] else [.rel (.pdL pfn)])

/-- Lock events of `kfree1(pa, decrease_ref)`: on the decrementing path
`acquire(&pd->lock)`, the ref-count check (panicking while holding the
descriptor lock), `release(&pd->lock)`; the no-decrement path reads the
count without taking the descriptor lock.  Then, if no panic occurred,
`acquire(&kmem.lock); ... release(&kmem.lock)` around the push. -/
def kfree1LockTrace (c : Cfg) (pa : Nat) (decrease_ref : Bool) (s : AState) :
    List LockEv :=
  if pa % PGSIZE ≠ 0 ∨ pa < c.kend ∨ c.PHYSTOP ≤ pa then []
  else
    match pa_to_pfn c pa with
    | none => []
    | some pfn =>
      if decrease_ref then
        .acq (.pdL pfn) ::
          (if s.ref pfn ≤ 0 then []
           else [.rel (.pdL pfn), .acq .kmemL, .rel .kmemL])
      else
        if s.ref pfn ≠ 0 then [] else [.acq .kmemL, .rel .kmemL]

/-- Check `locksOk n t`: starting with `n` locks held, the number of locks held
never exceeds 1 at any point of the trace `t`. -/
def locksOk : Nat → List LockEv → Bool
  | _, [] => true
  | n, .acq _ :: t => decide (n + 1 ≤ 1) && locksOk (n + 1) t
  | n, .rel _ :: t => locksOk (n - 1) t

/-! ### Descriptor access trace of `kinit`

`kinit` runs `freerange` (whose `kfree1(p, 0)` calls each read
`pages[pfn].ref` once, at `if (pd->ref != 0)`) and only then the loop
`initlock(&pd->lock); pd->ref = 0` over all descriptors.  The trace records
these descriptor accesses in program order. -/

/-- A descriptor access during `kinit`: a read of `pages[pfn].ref` on the
bootstrap release path, or the initialization (`initlock` plus `ref = 0`) of
descriptor `pfn`. -/
inductive InitEv where
  | readRef : Nat → InitEv
  | initDesc : Nat → InitEv
deriving DecidableEq

/-- Descriptor reads of the `freerange` loop, in order (same fuel convention
as `freerangeFrom`; the trace stops where the loop panics). -/
def kinitTraceLoop (c : Cfg) : Nat → Nat → List InitEv
  | 0, _ => []
  | fuel + 1, p =>
    if p + PGSIZE ≤ c.PHYSTOP then
      if p % PGSIZE ≠ 0 ∨ p < c.kend ∨ c.PHYSTOP ≤ p then []
      else
        match pa_to_pfn c p with
        | none => []
        | some pfn => .readRef pfn :: kinitTraceLoop c fuel (p + PGSIZE)
    else []

/-- All descriptor accesses `kinit` performs, in program order: the
`freerange` reads first, then the initialization of descriptors
`0, ..., NPAGES-1`. -/
def kinitTrace (c : Cfg) : List InitEv :=
  kinitTraceLoop c (c.PHYSTOP / PGSIZE + 1) (PGROUNDUP c.kend) ++
    (List.range c.NPAGES).map .initDesc

/-- Every read of a descriptor happens only after that descriptor was
initialized (the ordering the spec asks of `kinit`). -/
def ReadsAfterInit (t : List InitEv) : Prop :=
  ∀ i pfn, t.get? i = some (.readRef pfn) →
    ∃ j, j < i ∧ t.get? j = some (.initDesc pfn)

/-! ### Concrete fixtures

A small well-formed configuration (3 manageable frames) and some concrete
states, used to instantiate the hypotheses of the theorems below. -/

/-- A concrete configuration: `end = 4090`, so `end_pg = 4096`;
`PHYSTOP = 16384`; the manageable frames are 4096, 8192, 12288. -/
def c0 : Cfg := { kend := 4090, PHYSTOP := 16384, NPAGES := 3 }

/-- Concrete boot RAM contents: all zero. -/
def mem0 : Nat → Nat → Nat := fun _ _ => 0

/-- The boot state over `mem0`. -/
def boot0 : AState := bootState mem0

/-- The state `kinit` produces from `boot0` under `c0`. -/
def s0W : AState := (kinit c0 boot0).getD boot0

/-- A state in which frame 8192 (frame index 1) has two owners — the
reference-counted sharing scenario of the spec (the extra reference recorded
by allocator-external code such as copy-on-write fork). -/
def sShare : AState :=
  { freelist := [], ref := fun i => if i = 1 then 2 else 0, mem := mem0 }

/-- A state whose free list holds exactly frame 4096, all counts zero. -/
def sOne : AState :=
  { freelist := [4096], ref := fun _ => 0, mem := mem0 }

/-- A state with frame 4096 free and frame 8192 owned by one owner. -/
def sPair : AState :=
  { freelist := [4096], ref := fun i => if i = 1 then 1 else 0, mem := mem0 }

/-! ## Helper lemmas -/

theorem le_pgroundup (a : Nat) : a ≤ PGROUNDUP a := by
  simp only [PGROUNDUP, PGSIZE]
  have := Nat.div_add_mod (a + 4096 - 1) 4096
  have := Nat.mod_lt (a + 4096 - 1) (show 0 < 4096 by norm_num)
  omega

theorem pgroundup_mod (a : Nat) : PGROUNDUP a % PGSIZE = 0 := by
  simp only [PGROUNDUP, PGSIZE]
  omega

theorem pgroundup_le {a b : Nat} (h : a ≤ b) (hb : b % PGSIZE = 0) :
    PGROUNDUP a ≤ b := by
  simp only [PGROUNDUP, PGSIZE] at *
  have := Nat.div_add_mod (a + 4096 - 1) 4096
  have := Nat.mod_lt (a + 4096 - 1) (show 0 < 4096 by norm_num)
  omega

theorem end_pg_mod (c : Cfg) : c.end_pg % PGSIZE = 0 := pgroundup_mod c.kend

theorem kend_le_end_pg (c : Cfg) : c.kend ≤ c.end_pg := le_pgroundup c.kend

/-- An aligned address at or above `end` is at or above `end_pg`. -/
theorem end_pg_le_of_aligned {c : Cfg} {pa : Nat} (h : c.kend ≤ pa)
    (ha : pa % PGSIZE = 0) : c.end_pg ≤ pa :=
  pgroundup_le h ha

theorem pfnOf_eq_div (c : Cfg) (pa : Nat) :
    pfnOf c pa = (pa - c.end_pg) / PGSIZE := by
  simp only [pfnOf, PGSIZE, Nat.shiftRight_eq_div_pow]

/-- The frame index is injective on valid frame addresses. -/
theorem pfnOf_inj {c : Cfg} {pa qa : Nat} (hpa : pa % PGSIZE = 0)
    (hpl : c.end_pg ≤ pa) (hqa : qa % PGSIZE = 0) (hql : c.end_pg ≤ qa)
    (h : pfnOf c pa = pfnOf c qa) : pa = qa := by
  rw [pfnOf_eq_div, pfnOf_eq_div] at h
  have he := end_pg_mod c
  simp only [PGSIZE] at *
  omega

theorem pa_to_pfn_eq {c : Cfg} {pa : Nat} (h1 : pa % PGSIZE = 0)
    (h2 : c.end_pg ≤ pa) (h3 : pa ≤ c.PHYSTOP) :
    pa_to_pfn c pa = some (pfnOf c pa) := by
  unfold pa_to_pfn
  rw [if_neg (by omega)]
  rfl

theorem pa_to_pfn_some_inv {c : Cfg} {pa pfn : Nat}
    (h : pa_to_pfn c pa = some pfn) :
    pa % PGSIZE = 0 ∧ c.end_pg ≤ pa ∧ pa ≤ c.PHYSTOP ∧ pfn = pfnOf c pa := by
  unfold pa_to_pfn at h
  by_cases hg : pa % PGSIZE ≠ 0 ∨ pa < c.end_pg ∨ c.PHYSTOP < pa
  · rw [if_pos hg] at h; exact absurd h (by simp)
  · rw [if_neg hg] at h
    refine ⟨by omega, by omega, by omega, ?_⟩
    simpa [pfnOf] using h.symm

/-- The non-panicking run of `kfree1` on the no-decrement (bootstrap) path. -/
theorem kfree1_false_eq {c : Cfg} {pa : Nat} {s : AState}
    (h1 : pa % PGSIZE = 0) (h2 : c.end_pg ≤ pa) (h3 : pa < c.PHYSTOP)
    (h0 : s.ref (pfnOf c pa) = 0) :
    kfree1 c pa false s =
      some { freelist := pa :: s.freelist
             ref := s.ref
             mem := storeLink (memsetFrame s.mem pa freeJunk) pa
                      (s.freelist.headD 0) } := by
  unfold kfree1
  have hk := kend_le_end_pg c
  rw [if_neg (by omega), pa_to_pfn_eq h1 h2 (by omega)]
  simp [h0]

/-- The non-panicking run of `kfree` (`kfree1` with `decrease_ref`): the
count is decremented and the frame is *always* filled and pushed, whatever
the decremented count. -/
theorem kfree_eq {c : Cfg} {pa : Nat} {s : AState}
    (h1 : pa % PGSIZE = 0) (h2 : c.end_pg ≤ pa) (h3 : pa < c.PHYSTOP)
    (h0 : 0 < s.ref (pfnOf c pa)) :
    kfree c pa s =
      some { freelist := pa :: s.freelist
             ref := fun i => if i = pfnOf c pa then s.ref (pfnOf c pa) - 1
                             else s.ref i
             mem := storeLink (memsetFrame s.mem pa freeJunk) pa
                      (s.freelist.headD 0) } := by
  unfold kfree kfree1
  have hk := kend_le_end_pg c
  rw [if_neg (by omega), pa_to_pfn_eq h1 h2 (by omega)]
  simp [show ¬ s.ref (pfnOf c pa) ≤ 0 by omega]

/-- Inversion of a successful `kfree`. -/
theorem kfree_some_inv {c : Cfg} {pa : Nat} {s s1 : AState}
    (h : kfree c pa s = some s1) :
    pa % PGSIZE = 0 ∧ c.end_pg ≤ pa ∧ pa < c.PHYSTOP ∧
    0 < s.ref (pfnOf c pa) ∧
    s1.freelist = pa :: s.freelist ∧
    (∀ i, s1.ref i = if i = pfnOf c pa then s.ref (pfnOf c pa) - 1
                     else s.ref i) ∧
    (∀ a off, s1.mem a off =
      storeLink (memsetFrame s.mem pa freeJunk) pa (s.freelist.headD 0)
        a off) := by
  unfold kfree kfree1 at h
  by_cases hg : pa % PGSIZE ≠ 0 ∨ pa < c.kend ∨ c.PHYSTOP ≤ pa
  · rw [if_pos hg] at h; exact absurd h (by simp)
  rw [if_neg hg] at h
  push_neg at hg
  obtain ⟨ha, hk, hp⟩ := hg
  have h2 : c.end_pg ≤ pa := end_pg_le_of_aligned hk ha
  rw [pa_to_pfn_eq ha h2 (by omega)] at h
  simp only [if_true] at h
  by_cases h0 : s.ref (pfnOf c pa) ≤ 0
  · rw [if_pos h0] at h; exact absurd h (by simp)
  rw [if_neg h0] at h
  simp only [Option.some.injEq] at h
  subst h
  exact ⟨ha, h2, by omega, by omega, rfl, fun i => rfl, fun a off => rfl⟩

/-- A release of a frame whose count is zero (or negative) panics. -/
theorem kfree_zero_fatal {c : Cfg} {pa : Nat} {s : AState}
    (h1 : pa % PGSIZE = 0) (h2 : c.end_pg ≤ pa) (h3 : pa < c.PHYSTOP)
    (h0 : s.ref (pfnOf c pa) ≤ 0) :
    kfree c pa s = none := by
  unfold kfree kfree1
  have hk := kend_le_end_pg c
  rw [if_neg (by omega), pa_to_pfn_eq h1 h2 (by omega)]
  simp [h0]

/-- Running `kalloc` on an empty free list. -/
theorem kalloc_nil {c : Cfg} {s : AState} (h : s.freelist = []) :
    kalloc c s = some (none, s) := by
  unfold kalloc
  rw [h]

/-- Running `kalloc` popping a frame with zero count. -/
theorem kalloc_cons_eq {c : Cfg} {s : AState} {r : Nat} {rest : List Nat}
    (hfl : s.freelist = r :: rest) (hpfn : pa_to_pfn c r = some (pfnOf c r))
    (h0 : s.ref (pfnOf c r) = 0) :
    kalloc c s =
      some (some r,
        { freelist := rest
          ref := fun i => if i = pfnOf c r then s.ref (pfnOf c r) + 1
                          else s.ref i
          mem := memsetFrame s.mem r allocJunk }) := by
  unfold kalloc
  rw [hfl]
  simp [hpfn, h0]

/-- Running `kalloc` on a frame with nonzero count panics. -/
theorem kalloc_cons_fatal {c : Cfg} {s : AState} {r : Nat} {rest : List Nat}
    (hfl : s.freelist = r :: rest) (hpfn : pa_to_pfn c r = some (pfnOf c r))
    (h0 : s.ref (pfnOf c r) ≠ 0) :
    kalloc c s = none := by
  unfold kalloc
  rw [hfl]
  simp [hpfn, h0]

/-- Also `kalloc` panics when `pa_to_pfn` panics on the popped frame. -/
theorem kalloc_cons_pfn_none {c : Cfg} {s : AState} {r : Nat}
    {rest : List Nat} (hfl : s.freelist = r :: rest)
    (hpfn : pa_to_pfn c r = none) : kalloc c s = none := by
  unfold kalloc
  rw [hfl]
  simp [hpfn]

/-- Inversion of a non-panicking `kalloc`. -/
theorem kalloc_some_inv {c : Cfg} {s s1 : AState} {res : Option Nat}
    (h : kalloc c s = some (res, s1)) :
    (s.freelist = [] ∧ res = none ∧ s1 = s) ∨
    (∃ r rest, s.freelist = r :: rest ∧ res = some r ∧
      r % PGSIZE = 0 ∧ c.end_pg ≤ r ∧ r ≤ c.PHYSTOP ∧
      s.ref (pfnOf c r) = 0 ∧
      s1.freelist = rest ∧
      (∀ i, s1.ref i = if i = pfnOf c r then s.ref (pfnOf c r) + 1
                       else s.ref i) ∧
      (∀ a off, s1.mem a off = memsetFrame s.mem r allocJunk a off)) := by
  cases hfl : s.freelist with
  | nil =>
    rw [kalloc_nil hfl] at h
    simp only [Option.some.injEq, Prod.mk.injEq] at h
    exact Or.inl ⟨rfl, h.1.symm, h.2.symm⟩
  | cons r rest =>
    cases hpfn : pa_to_pfn c r with
    | none => rw [kalloc_cons_pfn_none hfl hpfn] at h; exact absurd h (by simp)
    | some pfn =>
      obtain ⟨ha, hlo, hhi, hv⟩ := pa_to_pfn_some_inv hpfn
      subst hv
      by_cases h0 : s.ref (pfnOf c r) = 0
      · rw [kalloc_cons_eq hfl hpfn h0] at h
        simp only [Option.some.injEq, Prod.mk.injEq] at h
        refine Or.inr ⟨r, rest, rfl, h.1.symm, ha, hlo, hhi, h0, ?_, ?_, ?_⟩
        · rw [← h.2]
        · intro i; rw [← h.2]
        · intro a off; rw [← h.2]
      · rw [kalloc_cons_fatal hfl hpfn h0] at h
        exact absurd h (by simp)

theorem PGSIZE_pos : 0 < PGSIZE := by norm_num [PGSIZE]

/-- Every address the `freerange` loop visits is at or above its start. -/
theorem framesFrom_ge (c : Cfg) :
    ∀ fuel p q, q ∈ framesFrom c fuel p → p ≤ q := by
  intro fuel
  induction fuel with
  | zero => intro p q hq; simp [framesFrom] at hq
  | succ fuel ih =>
    intro p q hq
    unfold framesFrom at hq
    by_cases hg : p + PGSIZE ≤ c.PHYSTOP
    · rw [if_pos hg] at hq
      rcases List.mem_cons.mp hq with h | h
      · omega
      · have := ih (p + PGSIZE) q h
        omega
    · rw [if_neg hg] at hq
      simp at hq

theorem framesFrom_nodup (c : Cfg) :
    ∀ fuel p, (framesFrom c fuel p).Nodup := by
  intro fuel
  induction fuel with
  | zero => intro p; simp [framesFrom]
  | succ fuel ih =>
    intro p
    unfold framesFrom
    by_cases hg : p + PGSIZE ≤ c.PHYSTOP
    · rw [if_pos hg]
      refine List.nodup_cons.mpr ⟨fun hmem => ?_, ih (p + PGSIZE)⟩
      have h1 := framesFrom_ge c fuel (p + PGSIZE) p hmem
      have := PGSIZE_pos
      omega
    · rw [if_neg hg]; simp

/-- The `freerange` loop visits exactly the aligned addresses of
`[p, PHYSTOP)` (alignment of `p` and `PHYSTOP`, and enough fuel, assumed). -/
theorem mem_framesFrom (c : Cfg) (hP : c.PHYSTOP % PGSIZE = 0) :
    ∀ fuel p q, p % PGSIZE = 0 → c.PHYSTOP ≤ p + fuel * PGSIZE →
      (q ∈ framesFrom c fuel p ↔ q % PGSIZE = 0 ∧ p ≤ q ∧ q < c.PHYSTOP) := by
  intro fuel
  induction fuel with
  | zero =>
    intro p q hal hfuel
    simp only [framesFrom, List.not_mem_nil, false_iff]
    simp only [PGSIZE] at *
    omega
  | succ fuel ih =>
    intro p q hal hfuel
    unfold framesFrom
    by_cases hg : p + PGSIZE ≤ c.PHYSTOP
    · rw [if_pos hg, List.mem_cons,
        ih (p + PGSIZE) q (by simp only [PGSIZE] at *; omega)
          (by simp only [PGSIZE] at *; omega)]
      simp only [PGSIZE] at *
      omega
    · rw [if_neg hg]
      simp only [List.not_mem_nil, false_iff]
      simp only [PGSIZE] at *
      omega

theorem length_framesFrom (c : Cfg) (hP : c.PHYSTOP % PGSIZE = 0) :
    ∀ fuel p, p % PGSIZE = 0 → c.PHYSTOP ≤ p + fuel * PGSIZE →
      (framesFrom c fuel p).length = (c.PHYSTOP - p) / PGSIZE := by
  intro fuel
  induction fuel with
  | zero =>
    intro p hal hfuel
    simp only [framesFrom, List.length_nil]
    simp only [PGSIZE] at *
    omega
  | succ fuel ih =>
    intro p hal hfuel
    unfold framesFrom
    by_cases hg : p + PGSIZE ≤ c.PHYSTOP
    · rw [if_pos hg, List.length_cons,
        ih (p + PGSIZE) (by simp only [PGSIZE] at *; omega)
          (by simp only [PGSIZE] at *; omega)]
      simp only [PGSIZE] at *
      omega
    · rw [if_neg hg]
      simp only [List.length_nil]
      simp only [PGSIZE] at *
      omega

/-- Running the `freerange` loop from an aligned in-range `p` over a state
whose counts are all zero succeeds, pushes exactly the visited frames (in
reverse, since the list is a stack) and leaves every count untouched. -/
theorem freerangeFrom_eq (c : Cfg) :
    ∀ fuel p s, c.PHYSTOP ≤ p + fuel * PGSIZE →
      p % PGSIZE = 0 → c.end_pg ≤ p → (∀ i, s.ref i = 0) →
      ∃ s1, freerangeFrom c fuel p s = some s1 ∧
        s1.freelist = (framesFrom c fuel p).reverse ++ s.freelist ∧
        s1.ref = s.ref := by
  intro fuel
  induction fuel with
  | zero =>
    intro p s hfuel hal hlo href
    have hg : ¬ (p + PGSIZE ≤ c.PHYSTOP) := by
      simp only [PGSIZE] at *; omega
    refine ⟨s, ?_, ?_, rfl⟩
    · unfold freerangeFrom; rw [if_neg hg]
    · unfold framesFrom; simp
  | succ fuel ih =>
    intro p s hfuel hal hlo href
    by_cases hg : p + PGSIZE ≤ c.PHYSTOP
    · have hplt : p < c.PHYSTOP := by
        have := PGSIZE_pos; omega
      have hfree := @kfree1_false_eq c p s hal hlo hplt (href _)
      obtain ⟨s1, h1, h2, h3⟩ := ih (p + PGSIZE)
        { freelist := p :: s.freelist
          ref := s.ref
          mem := storeLink (memsetFrame s.mem p freeJunk) p
                   (s.freelist.headD 0) }
        (by simp only [PGSIZE] at *; omega)
        (by simp only [PGSIZE] at *; omega)
        (by omega) href
      refine ⟨s1, ?_, ?_, h3⟩
      · unfold freerangeFrom
        rw [if_pos hg, hfree]
        exact h1
      · unfold framesFrom
        rw [if_pos hg]
        rw [h2]
        simp
    · refine ⟨s, ?_, ?_, rfl⟩
      · unfold freerangeFrom; rw [if_neg hg]
      · unfold framesFrom; rw [if_neg hg]; simp

/-- The frames `kinit` pushes: the loop run over the whole manageable
range. -/
def kinitFrames (c : Cfg) : List Nat :=
  framesFrom c (c.PHYSTOP / PGSIZE + 1) c.end_pg

/-- Running `kinit` from the boot state succeeds; it produces the free list
`(kinitFrames c).reverse` and leaves every count zero. -/
theorem kinit_eq (c : Cfg) (hw : c.Wf) (m0 : Nat → Nat → Nat) :
    ∃ s, kinit c (bootState m0) = some s ∧
      s.freelist = (kinitFrames c).reverse ∧
      (∀ i, s.ref i = 0) := by
  obtain ⟨hP, hle, hnp, hov⟩ := hw
  have hfuel : c.PHYSTOP ≤ c.end_pg + (c.PHYSTOP / PGSIZE + 1) * PGSIZE := by
    simp only [PGSIZE] at *
    omega
  obtain ⟨s1, h1, h2, h3⟩ := freerangeFrom_eq c (c.PHYSTOP / PGSIZE + 1)
    c.end_pg (bootState m0) hfuel (end_pg_mod c) le_rfl (fun _ => rfl)
  refine ⟨{ s1 with ref := fun i => if i < c.NPAGES then 0
                                    else s1.ref i }, ?_, ?_, ?_⟩
  · unfold kinit freerange
    simp only [show freerangeFrom c (c.PHYSTOP / PGSIZE + 1)
        (PGROUNDUP c.kend) (bootState m0) = some s1 from h1]
  · simpa [kinitFrames, bootState] using h2
  · intro i
    simp only [bootState] at h3
    by_cases hi : i < c.NPAGES <;> simp [hi, congrFun h3 i]

/-- The invariant holds right after `kinit`. -/
theorem inv_of_kinit {c : Cfg} {m0 : Nat → Nat → Nat} {s : AState}
    (hw : c.Wf) (h : kinit c (bootState m0) = some s) : Inv c s := by
  obtain ⟨s1, h1, h2, h3⟩ := kinit_eq c hw m0
  rw [h1] at h
  injection h with h
  subst h
  have hP := hw.1
  have hfuel : c.PHYSTOP ≤ c.end_pg + (c.PHYSTOP / PGSIZE + 1) * PGSIZE := by
    simp only [PGSIZE] at *
    omega
  refine ⟨?_, ?_, ?_⟩
  · rw [h2]
    simp only [List.nodup_reverse]
    exact framesFrom_nodup c _ _
  · intro pa hpa
    rw [h2, List.mem_reverse] at hpa
    simp only [kinitFrames] at hpa
    rw [mem_framesFrom c hP _ _ pa (end_pg_mod c) hfuel] at hpa
    exact ⟨⟨hpa.1, hpa.2.1, hpa.2.2⟩, h3 _⟩
  · intro i
    rw [h3 i]
    omega

/-- Non-panicking `kalloc` preserves the invariant. -/
theorem inv_kalloc {c : Cfg} {s s1 : AState} {res : Option Nat}
    (hI : Inv c s) (h : kalloc c s = some (res, s1)) : Inv c s1 := by
  obtain ⟨hnd, hmem, haux⟩ := hI
  rcases kalloc_some_inv h with ⟨_, _, hs⟩ | ⟨r, rest, hfl, _, ha, hlo, _,
    h0, hfl1, href1, _⟩
  · rw [hs]; exact ⟨hnd, hmem, haux⟩
  · rw [hfl] at hnd hmem
    have hrnotin : r ∉ rest := (List.nodup_cons.mp hnd).1
    refine ⟨?_, ?_, ?_⟩
    · rw [hfl1]; exact (List.nodup_cons.mp hnd).2
    · intro pa hpa
      rw [hfl1] at hpa
      have hprops := hmem pa (List.mem_cons_of_mem r hpa)
      refine ⟨hprops.1, ?_⟩
      rw [href1]
      have hne : pfnOf c pa ≠ pfnOf c r := fun heq => by
        have := pfnOf_inj hprops.1.1 hprops.1.2.1 ha hlo heq
        exact hrnotin (this ▸ hpa)
      rw [if_neg hne]
      exact hprops.2
    · intro i
      rw [href1]
      by_cases hi : i = pfnOf c r
      · rw [if_pos hi, h0]
        omega
      · rw [if_neg hi]
        exact haux i

/-- Non-panicking `kfree` preserves the invariant. -/
theorem inv_kfree {c : Cfg} {s s1 : AState} {pa : Nat}
    (hI : Inv c s) (h : kfree c pa s = some s1) : Inv c s1 := by
  obtain ⟨hnd, hmem, haux⟩ := hI
  obtain ⟨ha, hlo, hhi, hpos, hfl1, href1, _⟩ := kfree_some_inv h
  have hnotin : pa ∉ s.freelist := fun hin => by
    have := (hmem pa hin).2
    omega
  have hone : s.ref (pfnOf c pa) = 1 := by
    have := (haux (pfnOf c pa)).2
    omega
  refine ⟨?_, ?_, ?_⟩
  · rw [hfl1]
    exact List.nodup_cons.mpr ⟨hnotin, hnd⟩
  · intro q hq
    rw [hfl1, List.mem_cons] at hq
    rcases hq with hq | hq
    · subst hq
      refine ⟨⟨ha, hlo, hhi⟩, ?_⟩
      rw [href1, if_pos rfl, hone]
      decide
    · have hprops := hmem q hq
      refine ⟨hprops.1, ?_⟩
      rw [href1]
      have hne : pfnOf c q ≠ pfnOf c pa := fun heq => by
        have := pfnOf_inj hprops.1.1 hprops.1.2.1 ha hlo heq
        exact hnotin (this ▸ hq)
      rw [if_neg hne]
      exact hprops.2
  · intro i
    rw [href1]
    by_cases hi : i = pfnOf c pa
    · rw [if_pos hi, hone]
      omega
    · rw [if_neg hi]
      exact haux i

/-- The free-list invariant holds in every reachable state. -/
theorem reachable_inv {c : Cfg} {s : AState} (hw : c.Wf)
    (h : Reachable c s) : Inv c s := by
  induction h with
  | boot m0 s h => exact inv_of_kinit hw h
  | alloc s r s1 _ h ih => exact inv_kalloc ih h
  | free s pa s1 _ h ih => exact inv_kfree ih h

/-! ## Claims -/

/-- The concrete configuration `c0` is well formed. -/
theorem c0_wf : Cfg.Wf c0 := by
  unfold Cfg.Wf
  decide

/-- C1: the claim says a release that leaves the count positive stops after
the decrement (no sentinel fill, no push).  The code has no early return on
that path: releasing frame 8192 while its count is 2 decrements the count to
1 but still fills the frame with the release sentinel and pushes it onto the
free list, after which the own assertion of the code in `kalloc` (nonzero count on
a free page) panics.  This theorem evaluates the code at that failing
input. -/
theorem c1_release_with_shared_count_still_pushes :
    ((kfree c0 8192 sShare).map fun s => s.freelist) = some [8192] ∧
    ((kfree c0 8192 sShare).map fun s => s.ref 1) = some 1 ∧
    ((kfree c0 8192 sShare).map fun s => s.mem 8192 100) = some freeJunk ∧
    ((kfree c0 8192 sShare).bind fun s => kalloc c0 s).isNone = true := by
  decide

/-- C3: the claim says `pa_to_pfn` is fatal for every address with
`address >= range_end`, in particular `address == range_end`.  The guard in
the code is `pa > PHYSTOP`, so the aligned address `PHYSTOP` itself (range
end, here 16384) is accepted and mapped to frame index 3 = `NPAGES`, one past
the descriptor table, although the own comment of the code demands
`end_pg <= pa < PHYSTOP`.  This theorem evaluates the code at that failing
input. -/
theorem c3_pa_to_pfn_accepts_range_end :
    Cfg.Wf c0 ∧
    c0.PHYSTOP % PGSIZE = 0 ∧
    pa_to_pfn c0 c0.PHYSTOP = some ((c0.PHYSTOP - c0.end_pg) / PGSIZE) ∧
    (c0.PHYSTOP - c0.end_pg) / PGSIZE = c0.NPAGES :=
  ⟨c0_wf, by decide, by decide, by decide⟩

/-- C4: releasing a frame-aligned, in-range address whose descriptor count
is zero (double free, or free of a never-allocated address) panics. -/
theorem c4_free_with_zero_count_fatal (c : Cfg) (s : AState) (pa : Nat)
    (h1 : pa % PGSIZE = 0) (h2 : c.end_pg ≤ pa) (h3 : pa < c.PHYSTOP)
    (h0 : s.ref (pfnOf c pa) = 0) : kfree c pa s = none :=
  kfree_zero_fatal h1 h2 h3 (by omega)

/-- Witness for C4: double free of frame 4096 in the boot state panics. -/
theorem c4_witness : kfree c0 4096 boot0 = none :=
  c4_free_with_zero_count_fatal c0 boot0 4096 rfl (by decide) (by decide) rfl

/-- C5: with an empty free list, `kalloc` returns the null ("no memory")
result, does not panic, and leaves the whole state unchanged. -/
theorem c5_exhaustion_returns_null (c : Cfg) (s : AState)
    (h : s.freelist = []) : kalloc c s = some (none, s) :=
  kalloc_nil h

/-- Witness for C5 at the boot state. -/
theorem c5_witness : kalloc c0 boot0 = some (none, boot0) :=
  c5_exhaustion_returns_null c0 boot0 rfl

/-- C2: in every reachable state, the free list holds no duplicates and
every frame on it is frame-aligned, lies in the manageable range
`[end_pg, PHYSTOP)`, and has descriptor count zero.  The zero count makes
the free list disjoint from the live-owned frames (count >= 1), so no frame
appears more than once across the free list and the live-owned set. -/
theorem c2_free_list_invariant (c : Cfg) (s : AState) (hw : c.Wf)
    (hr : Reachable c s) :
    s.freelist.Nodup ∧
    (∀ pa ∈ s.freelist, validPa c pa ∧ s.ref (pfnOf c pa) = 0) := by
  have hI := reachable_inv hw hr
  exact ⟨hI.1, hI.2.1⟩

/-- Witness for C2: the state right after `kinit` under `c0` is reachable
and its free list holds no duplicates. -/
theorem c2_witness : s0W.freelist.Nodup :=
  (c2_free_list_invariant c0 s0W c0_wf (Reachable.boot mem0 s0W rfl)).1

/-- C6: when `kalloc` pops a frame `r` from a non-empty free list (and the
index computation does not panic), it panics if the count of the frame is
nonzero; otherwise it sets the count to 1, fills the whole frame content
with the allocation sentinel `allocJunk` (nonzero and distinct from the
release sentinel `freeJunk`), and returns `r`. -/
theorem c6_alloc_pop_behavior (c : Cfg) (s : AState) (r : Nat)
    (rest : List Nat) (hfl : s.freelist = r :: rest)
    (hpfn : pa_to_pfn c r = some (pfnOf c r)) :
    (s.ref (pfnOf c r) ≠ 0 → kalloc c s = none) ∧
    (s.ref (pfnOf c r) = 0 →
      ∃ s1, kalloc c s = some (some r, s1) ∧
        s1.ref (pfnOf c r) = 1 ∧
        (∀ off, off < PGSIZE → s1.mem r off = allocJunk) ∧
        allocJunk ≠ 0 ∧ allocJunk ≠ freeJunk) := by
  constructor
  · intro h0
    exact kalloc_cons_fatal hfl hpfn h0
  · intro h0
    refine ⟨_, kalloc_cons_eq hfl hpfn h0, ?_, ?_, by decide, by decide⟩
    · show (if pfnOf c r = pfnOf c r then s.ref (pfnOf c r) + 1
            else s.ref (pfnOf c r)) = 1
      rw [if_pos rfl, h0]
      decide
    · intro off hoff
      show memsetFrame s.mem r allocJunk r off = allocJunk
      simp [memsetFrame]

/-- Witness for C6: popping frame 4096 from `sOne` returns it. -/
theorem c6_witness : ((kalloc c0 sOne).map fun p => p.1) = some (some 4096) := by
  obtain ⟨s1, h1, _⟩ :=
    (c6_alloc_pop_behavior c0 sOne 4096 [] rfl rfl).2 rfl
  rw [h1]
  rfl

/-- C7: right after `kinit` the free list contains exactly the frame-aligned
frames of the manageable range — membership coincides with `validPa`, and
the length is the number `(PHYSTOP - end_pg) / PGSIZE` of such frames — and
every descriptor of the page descriptor table reads count zero. -/
theorem c7_kinit_postcondition (c : Cfg) (m0 : Nat → Nat → Nat) (s : AState)
    (hw : c.Wf) (h : kinit c (bootState m0) = some s) :
    s.freelist.length = (c.PHYSTOP - c.end_pg) / PGSIZE ∧
    (∀ pa, pa ∈ s.freelist ↔ validPa c pa) ∧
    (∀ i, i < c.NPAGES → s.ref i = 0) := by
  obtain ⟨s1, h1, h2, h3⟩ := kinit_eq c hw m0
  rw [h1] at h
  injection h with h
  subst h
  have hP := hw.1
  have hfuel : c.PHYSTOP ≤ c.end_pg + (c.PHYSTOP / PGSIZE + 1) * PGSIZE := by
    simp only [PGSIZE] at *
    omega
  refine ⟨?_, ?_, fun i _ => h3 i⟩
  · rw [h2]
    simp only [List.length_reverse, kinitFrames]
    exact length_framesFrom c hP _ _ (end_pg_mod c) hfuel
  · intro pa
    rw [h2, List.mem_reverse]
    simp only [kinitFrames]
    rw [mem_framesFrom c hP _ _ pa (end_pg_mod c) hfuel]
    exact Iff.rfl

/-- Witness for C7: under `c0`, `kinit` leaves 3 frames on the free list. -/
theorem c7_witness : s0W.freelist.length = (c0.PHYSTOP - c0.end_pg) / PGSIZE :=
  (c7_kinit_postcondition c0 mem0 s0W c0_wf rfl).1

/-- Every event the `freerange` part of `kinit` logs is a descriptor read. -/
theorem kinitTraceLoop_reads (c : Cfg) :
    ∀ fuel p e, e ∈ kinitTraceLoop c fuel p → ∃ n, e = InitEv.readRef n := by
  intro fuel
  induction fuel with
  | zero => intro p e he; simp [kinitTraceLoop] at he
  | succ fuel ih =>
    intro p e he
    unfold kinitTraceLoop at he
    by_cases hg : p + PGSIZE ≤ c.PHYSTOP
    · rw [if_pos hg] at he
      by_cases hc : p % PGSIZE ≠ 0 ∨ p < c.kend ∨ c.PHYSTOP ≤ p
      · rw [if_pos hc] at he; simp at he
      · rw [if_neg hc] at he
        cases hpfn : pa_to_pfn c p with
        | none => rw [hpfn] at he; simp at he
        | some pfn =>
          rw [hpfn] at he
          rcases List.mem_cons.mp he with h | h
          · exact ⟨pfn, h⟩
          · exact ih (p + PGSIZE) e h
    · rw [if_neg hg] at he; simp at he

/-- C8 counterexample: the claim, as stated, is false.  In `kinit` the
`freerange` pass (whose release path reads the count of each descriptor) runs
*before* the descriptor-initialization loop, so the very first descriptor
access of `kinit` is a read of descriptor 0, with no initialization before
it. -/
theorem c8_counterexample : ¬ ReadsAfterInit (kinitTrace c0) := by
  intro h
  obtain ⟨j, hj, _⟩ := h 0 0 rfl
  omega

/-- C8 (amended): every descriptor read performed on the bootstrap release
path occurs *before* every descriptor initialization — `kinit` runs
`freerange` first and the `initlock`/`ref = 0` loop second.  (The reads are
nevertheless well-defined: the statically allocated descriptor table is
zero-initialized, which is why `kinit` still succeeds, cf. C7.) -/
theorem c8_reads_precede_inits (c : Cfg) (i j p q : Nat)
    (hi : (kinitTrace c).get? i = some (InitEv.readRef p))
    (hj : (kinitTrace c).get? j = some (InitEv.initDesc q)) : i < j := by
  unfold kinitTrace at hi hj
  set L := kinitTraceLoop c (c.PHYSTOP / PGSIZE + 1) (PGROUNDUP c.kend)
    with hL
  have hiL : i < L.length := by
    by_contra hcon
    push_neg at hcon
    rw [List.get?_append_right hcon] at hi
    have hmem := List.get?_mem hi
    obtain ⟨n, _, hn⟩ := List.mem_map.mp hmem
    exact absurd hn (by simp)
  have hjL : L.length ≤ j := by
    by_contra hcon
    push_neg at hcon
    rw [List.get?_append hcon] at hj
    have hmem := List.get?_mem hj
    obtain ⟨n, hn⟩ := kinitTraceLoop_reads c _ _ _ hmem
    exact absurd hn (by simp)
  omega

/-- Witness for the amended C8: under `c0` the read of descriptor 0 (trace
position 0) precedes its initialization (trace position 3). -/
theorem c8_witness :
    (kinitTrace c0).get? 0 = some (InitEv.readRef 0) ∧
    (kinitTrace c0).get? 3 = some (InitEv.initDesc 0) ∧ (0 : Nat) < 3 :=
  ⟨rfl, rfl, c8_reads_precede_inits c0 0 3 0 0 rfl rfl⟩

/-- C9: neither `kalloc` nor `kfree1` (hence `kfree`) ever holds the
free-list lock and a descriptor lock at the same time: along every execution
path, including the panicking ones, at most one lock is held at any point of
the lock event trace. -/
theorem c9_at_most_one_lock (c : Cfg) (s : AState) (pa : Nat) (d : Bool) :
    locksOk 0 (kallocLockTrace c s) = true ∧
    locksOk 0 (kfree1LockTrace c pa d s) = true := by
  constructor
  · unfold kallocLockTrace
    split
    · rfl
    · split
      · rfl
      · split
        · rfl
        · rfl
  · unfold kfree1LockTrace
    split
    · rfl
    · split
      · rfl
      · split
        · split
          · rfl
          · rfl
        · split
          · rfl
          · rfl
/-- C10: a non-panicking `kfree` of `pa` changes no descriptor and no frame
content other than those of `pa`; a non-panicking `kalloc` returning frame
`r` changes no descriptor and no content other than those of `r`, and only
removes from the free list; `kalloc` returning the null result changes
nothing at all. -/
theorem c10_frame_effects (c : Cfg) (s : AState) :
    (∀ pa s1, kfree c pa s = some s1 →
      (∀ i, i ≠ pfnOf c pa → s1.ref i = s.ref i) ∧
      (∀ a off, a ≠ pa → s1.mem a off = s.mem a off)) ∧
    (∀ r s1, kalloc c s = some (some r, s1) →
      (∀ i, i ≠ pfnOf c r → s1.ref i = s.ref i) ∧
      (∀ a off, a ≠ r → s1.mem a off = s.mem a off) ∧
      (∀ pa, pa ∈ s1.freelist → pa ∈ s.freelist)) ∧
    (∀ s1, kalloc c s = some (none, s1) → s1 = s) := by
  refine ⟨?_, ?_, ?_⟩
  · intro pa s1 h
    obtain ⟨_, _, _, _, _, href, hmem⟩ := kfree_some_inv h
    constructor
    · intro i hi
      rw [href i, if_neg hi]
    · intro a off ha
      rw [hmem a off]
      simp [storeLink, memsetFrame, ha]
  · intro r s1 h
    rcases kalloc_some_inv h with ⟨_, hres, _⟩ |
      ⟨r1, rest, hfl, hres, _, _, _, _, hfl1, href, hmem⟩
    · exact absurd hres (by simp)
    · have hr : r1 = r := by
        injection hres with hres
        exact hres.symm
      subst hr
      refine ⟨?_, ?_, ?_⟩
      · intro i hi
        rw [href i, if_neg hi]
      · intro a off ha
        rw [hmem a off]
        simp [memsetFrame, ha]
      · intro pa hpa
        rw [hfl1] at hpa
        rw [hfl]
        exact List.mem_cons_of_mem r1 hpa
  · intro s1 h
    rcases kalloc_some_inv h with ⟨_, _, hs⟩ | ⟨r1, rest, _, hres, _⟩
    · exact hs
    · exact absurd hres (by simp)

/-- Witness for C10: releasing frame 8192 in `sPair` leaves the descriptor
of frame 4096 (index 0) unchanged. -/
theorem c10_witness :
    ((kfree c0 8192 sPair).getD boot0).ref 0 = sPair.ref 0 := by
  have h : kfree c0 8192 sPair = some ((kfree c0 8192 sPair).getD boot0) :=
    rfl
  exact ((c10_frame_effects c0 sPair).1 8192 _ h).1 0 (by decide)

end KAlloc
